import Mathlib

/-!
Verification of the Beppe text editor core (document model and viewport
engine) against its natural-language specification.

The Rust sources are shallowly embedded as follows.

* A Unicode scalar value is a `UChar`: its identity (`code`), its UTF-8
  byte length (`utf8Len`), its grapheme-segmentation class (`cls`, the
  Base/Extend fragment of UAX #29 that is relevant to the texts treated
  here) and its display width (`width`, the unicode-width convention in
  which control characters count 0).
* A Rust `String` is a `List UChar`; byte offsets are sums of `utf8Len`
  over prefixes.  Since valid UTF-8 is self-synchronizing, a substring
  match of a valid needle always starts on a character boundary, so
  byte-level `match_indices` is embedded as character-level matching
  plus byte-offset arithmetic.
* `unicode_segmentation::graphemes` is embedded as `graphemes`: a
  cluster is one character together with the maximal following run of
  Extend-class characters (a leading Extend run forms its own cluster).
* Machine integers (`usize`) are `Nat`; `saturating_sub` is truncated
  subtraction, `saturating_add` is addition (no overflow at the sizes
  involved), `abs_diff` is `Nat` absolute difference.
* Fallible operations return `Option`/`Except`.  File and terminal I/O
  are external collaborators: `Buffer::save` is embedded as returning
  the list of text lines it would write.
-/

namespace Beppe

/-- Grapheme-segmentation class of a Unicode scalar: `extend` is a
combining (Extend-class) character, `base` anything else. -/
inductive CharClass where
  | base
  | extend
deriving DecidableEq

/-- A Unicode scalar value with the attributes the editor consults:
identity, UTF-8 byte length, segmentation class, display width
(0 for control and combining characters), and predicates used by
`TextFragment::from` (`char::is_control`, whitespace for `str::trim`). -/
structure UChar where
  code : Nat
  utf8Len : Nat
  cls : CharClass
  width : Nat
  isControl : Bool
  isWhitespace : Bool
deriving DecidableEq

/-- Is this character of the Extend (combining) class? -/
def isExt (c : UChar) : Bool :=
  match c.cls with
  | .extend => true
  | .base => false

/-- Total UTF-8 byte length of a string (a Rust `str::len`). -/
def strLen (s : List UChar) : Nat := (s.map UChar.utf8Len).sum

/-- Display width of a string (`UnicodeWidthStr::width`): the sum of the
character widths. -/
def strWidth (s : List UChar) : Nat := (s.map UChar.width).sum

/-- Grapheme segmentation (`unicode_segmentation`), restricted to the
Base/Extend fragment of UAX #29: each cluster is one character plus the
maximal following run of Extend-class characters (so a leading Extend
run forms a cluster of its own).  Defined by structural recursion —
prepending a character either absorbs a leading all-Extend cluster or
opens a fresh one — so that concrete instances evaluate by `decide`;
`graphemes_cons` below states the direct takeWhile/dropWhile
characterization. -/
def graphemes : List UChar → List (List UChar)
  | [] => []
  | c :: rest =>
    match graphemes rest with
    | [] => [[c]]
    | g :: gs =>
      if g.head?.elim false isExt then (c :: g) :: gs
      else [c] :: g :: gs

/-- `GraphemeWidth` from `line.rs`: display-width class of a fragment. -/
inductive GraphemeWidth where
  | Zero
  | Half
  | Full
deriving DecidableEq

/-- `TextFragment` from `line.rs`: one grapheme with its width class,
optional replacement glyph (stored as a code point) and the byte offset
of its start inside the owning line's text. -/
structure TextFragment where
  grapheme : List UChar
  width : GraphemeWidth
  replacement : Option Nat
  start_index : Nat
deriving DecidableEq

/-- The tab character. -/
def tabChar : UChar := ⟨9, 1, .base, 0, true, true⟩

/-- `TextFragment::from`: classify one grapheme's display width and pick
its replacement glyph, exactly as in `line.rs`. -/
def TextFragment.from (g : List UChar) (start_index : Nat) : TextFragment :=
  match strWidth g with
  | 0 =>
      if (g.head?.elim false UChar.isControl) then
        ⟨g, .Zero, some 0x25AF, start_index⟩
      else
        ⟨g, .Zero, some 0xB7, start_index⟩
  | 1 =>
      if g = [tabChar] then
        ⟨g, .Half, some 0x2192, start_index⟩
      else if g.all UChar.isWhitespace then
        ⟨g, .Half, some 0x2423, start_index⟩
      else
        ⟨g, .Half, none, start_index⟩
  | _ + 2 => ⟨g, .Full, none, start_index⟩

/-- Build the fragment list of a string from a running byte offset
(`Line::string_to_fragments`, whose offsets come from
`grapheme_indices`). -/
def fragmentsFrom (off : Nat) : List (List UChar) → List TextFragment
  | [] => []
  | g :: gs => TextFragment.from g off :: fragmentsFrom (off + strLen g) gs

/-- `Line` from `line.rs`: the owned text.  The fragment vector the Rust
code stores alongside is rebuilt after every mutation, so it is embedded
as the derived view `Line.fragments`. -/
structure Line where
  string : List UChar
deriving DecidableEq

/-- The derived fragment list of a line (always in sync with the text). -/
def Line.fragments (l : Line) : List TextFragment :=
  fragmentsFrom 0 (graphemes l.string)

/-- `Line::from`. -/
def Line.from (s : List UChar) : Line := ⟨s⟩

/-- `Line::grapheme_count`. -/
def Line.grapheme_count (l : Line) : Nat := l.fragments.length

/-- Numeric width of a fragment as used by `width_until`
(Zero/Half count 1, Full counts 2). -/
def TextFragment.widthNat (f : TextFragment) : Nat :=
  match f.width with
  | .Zero | .Half => 1
  | .Full => 2

/-- `Line::width_until`: summed display width of the first `index`
fragments. -/
def Line.width_until (l : Line) (index : Nat) : Nat :=
  ((l.fragments.take index).map TextFragment.widthNat).sum

/-- `Line::insert_char_at`: insert the character at the byte offset of
fragment `index` (append when there is no such fragment), then rebuild
the fragments.  Fragment `index` starts at the byte boundary after the
first `index` grapheme clusters, so the byte-level insertion is the
char-level insertion at that cluster boundary. -/
def Line.insert_char_at (l : Line) (index : Nat) (c : UChar) : Line :=
  let gs := graphemes l.string
  if index < gs.length then
    ⟨(gs.take index).flatten ++ c :: (gs.drop index).flatten⟩
  else
    ⟨l.string ++ [c]⟩

/-- `Line::remove_at`: drain exactly the bytes of fragment `index`
(no-op when out of range), then rebuild the fragments. -/
def Line.remove_at (l : Line) (index : Nat) : Line :=
  let gs := graphemes l.string
  if index < gs.length then
    ⟨(gs.take index).flatten ++ (gs.drop (index + 1)).flatten⟩
  else
    l

/-- `Line::append`: concatenate the other line's text, rebuild. -/
def Line.append (l other : Line) : Line := ⟨l.string ++ other.string⟩

/-! ### Segmentation lemmas -/

/-- The one-step takeWhile/dropWhile characterization of `graphemes`:
the first cluster is the head character with the following Extend run,
and the rest is the segmentation of what remains. -/
theorem graphemes_cons (c : UChar) (rest : List UChar) :
    graphemes (c :: rest) =
      (c :: rest.takeWhile isExt) :: graphemes (rest.dropWhile isExt) := by
  induction rest generalizing c with
  | nil => simp [graphemes]
  | cons d rest' ih =>
      cases he : isExt d with
      | true =>
          show (match graphemes (d :: rest') with
            | [] => [[c]]
            | g :: gs =>
              if g.head?.elim false isExt then (c :: g) :: gs
              else [c] :: g :: gs) = _
          rw [ih d]
          simp [List.takeWhile_cons, List.dropWhile_cons, he]
      | false =>
          show (match graphemes (d :: rest') with
            | [] => [[c]]
            | g :: gs =>
              if g.head?.elim false isExt then (c :: g) :: gs
              else [c] :: g :: gs) = _
          rw [ih d]
          simp [List.takeWhile_cons, List.dropWhile_cons, he, ih d]

/-- Induction along the recursion pattern of the segmentation: a
property holds of every string if it holds of `[]` and is preserved by
prepending one character to a string whose leading Extend run has been
peeled off. -/
theorem graphemes_ind (P : List UChar → Prop) (h0 : P [])
    (h1 : ∀ c rest, P (rest.dropWhile isExt) → P (c :: rest)) :
    ∀ s, P s := by
  have key : ∀ n s, s.length ≤ n → P s := by
    intro n
    induction n with
    | zero =>
        intro s hs
        rw [List.length_eq_zero.mp (Nat.le_zero.mp hs)]
        exact h0
    | succ n ih =>
        intro s hs
        cases s with
        | nil => exact h0
        | cons c rest =>
            refine h1 c rest (ih _ ?_)
            have hd := (List.dropWhile_sublist (p := isExt) (l := rest)).length_le
            simp only [List.length_cons] at hs
            omega
  intro s
  exact key s.length s le_rfl

theorem graphemes_flatten (s : List UChar) : (graphemes s).flatten = s := by
  induction s using graphemes_ind with
  | h0 => simp [graphemes]
  | h1 c rest ih => rw [graphemes_cons]; simp [ih]

theorem takeWhile_append_of_head_not {α : Type} (p : α → Bool) (xs ys : List α)
    (h : ∀ d, ys.head? = some d → p d = false) :
    (xs ++ ys).takeWhile p = xs.takeWhile p ∧
      (xs ++ ys).dropWhile p = xs.dropWhile p ++ ys := by
  induction xs with
  | nil =>
      cases ys with
      | nil => simp
      | cons d t => simp [List.takeWhile_cons, List.dropWhile_cons, h d rfl]
  | cons x xs ih =>
      cases hp : p x with
      | true => simpa [List.takeWhile_cons, List.dropWhile_cons, hp] using ih
      | false => simp [List.takeWhile_cons, List.dropWhile_cons, hp]

theorem takeWhile_append_of_all {α : Type} (p : α → Bool) (xs ys : List α)
    (h : xs.all p = true) :
    (xs ++ ys).takeWhile p = xs ++ ys.takeWhile p ∧
      (xs ++ ys).dropWhile p = ys.dropWhile p := by
  induction xs with
  | nil => simp
  | cons x xs ih =>
      simp only [List.all_cons, Bool.and_eq_true] at h
      simp [List.takeWhile_cons, List.dropWhile_cons, h.1, ih h.2]

theorem graphemes_append_of_head_base (s₁ s₂ : List UChar)
    (h : ∀ d, s₂.head? = some d → isExt d = false) :
    graphemes (s₁ ++ s₂) = graphemes s₁ ++ graphemes s₂ := by
  induction s₁ using graphemes_ind with
  | h0 => simp [graphemes]
  | h1 c rest ih =>
      have ht := takeWhile_append_of_head_not isExt rest s₂ h
      simp only [List.cons_append, graphemes_cons, ht.1, ht.2, ih]

theorem head?_dropWhile_not {α : Type} (p : α → Bool) (l : List α) :
    ∀ d, (l.dropWhile p).head? = some d → p d = false := by
  induction l with
  | nil => intro d hd; simp at hd
  | cons x xs ih =>
      intro d hd
      rw [List.dropWhile_cons] at hd
      by_cases hp : p x = true
      · exact ih d (by simpa [hp] using hd)
      · simp only [Bool.not_eq_true] at hp
        simp only [hp, Bool.false_eq_true, if_false, List.head?_cons,
          Option.some.injEq] at hd
        subst hd
        exact hp

/-- Every cluster the segmentation produces is a head character followed
by a run of Extend-class characters. -/
def ClustersOk (cl : List (List UChar)) : Prop :=
  ∀ g ∈ cl, ∃ d t, g = d :: t ∧ t.all isExt = true

/-- Every cluster in the list starts with a non-Extend character. -/
def HeadsBase (cl : List (List UChar)) : Prop :=
  ∀ g ∈ cl, ∀ d, g.head? = some d → isExt d = false

theorem clustersOk_graphemes (s : List UChar) : ClustersOk (graphemes s) := by
  induction s using graphemes_ind with
  | h0 => intro g hg; simp [graphemes] at hg
  | h1 c rest ih =>
      intro g hg
      rw [graphemes_cons] at hg
      rcases List.mem_cons.mp hg with hg | hg
      · exact ⟨c, rest.takeWhile isExt, hg, List.all_eq_true.mpr
          (fun x hx => List.mem_takeWhile_imp hx)⟩
      · exact ih g hg

theorem headsBase_graphemes (s : List UChar)
    (h : ∀ d, s.head? = some d → isExt d = false) :
    HeadsBase (graphemes s) := by
  induction s using graphemes_ind with
  | h0 => intro g hg; simp [graphemes] at hg
  | h1 c rest ih =>
      intro g hg d hd
      rw [graphemes_cons] at hg
      rcases List.mem_cons.mp hg with hg | hg
      · subst hg
        simp only [List.head?_cons, Option.some.injEq] at hd
        subst hd
        exact h c rfl
      · exact ih (head?_dropWhile_not isExt rest) g hg d hd

theorem headsBase_graphemes_tail (s : List UChar) :
    HeadsBase (graphemes s).tail := by
  cases s with
  | nil => intro g hg; simp [graphemes] at hg
  | cons c rest =>
      rw [graphemes_cons]
      exact headsBase_graphemes _ (head?_dropWhile_not isExt rest)

theorem takeWhile_eq_nil_of_head_not {α : Type} (p : α → Bool) (l : List α)
    (h : ∀ d, l.head? = some d → p d = false) :
    l.takeWhile p = [] ∧ l.dropWhile p = l := by
  cases l with
  | nil => simp
  | cons x xs => simp [List.takeWhile_cons, List.dropWhile_cons, h x rfl]

/-- Re-segmenting the concatenation of a valid cluster list yields it
back. -/
theorem graphemes_flatten_of_clusters (cl : List (List UChar))
    (hok : ClustersOk cl) (hhd : HeadsBase cl.tail) :
    graphemes cl.flatten = cl := by
  induction cl with
  | nil => simp [graphemes]
  | cons g cls ih =>
      simp only [List.tail_cons] at hhd
      obtain ⟨d, t, rfl, hall⟩ := hok _ (List.mem_cons_self _ _)
      have hx : ∀ e, cls.flatten.head? = some e → isExt e = false := by
        intro e he
        cases cls with
        | nil => simp at he
        | cons g' cls' =>
            obtain ⟨d', t', hg', _⟩ :=
              hok _ (List.mem_cons.mpr (.inr (List.mem_cons_self _ _)))
            rw [List.flatten_cons, hg'] at he
            simp only [List.cons_append, List.head?_cons, Option.some.injEq] at he
            subst he
            exact hhd _ (List.mem_cons_self _ _) d' (by rw [hg']; rfl)
      have hta := takeWhile_append_of_all isExt t cls.flatten hall
      have htn := takeWhile_eq_nil_of_head_not isExt cls.flatten hx
      have ihr : graphemes cls.flatten = cls :=
        ih (fun x hx' => hok x (List.mem_cons.mpr (.inr hx')))
          (fun x hx' => hhd x (List.mem_of_mem_tail hx'))
      rw [List.flatten_cons, List.cons_append, graphemes_cons, hta.1, hta.2,
        htn.1, htn.2, List.append_nil, ihr]

theorem isExt_eq_false_iff (c : UChar) :
    isExt c = false ↔ c.cls = CharClass.base := by
  cases h : c.cls <;> simp [isExt, h]

theorem take_tail {α : Type} (l : List α) (n : Nat) :
    (l.take n).tail = l.tail.take (n - 1) := by
  cases l with
  | nil => simp
  | cons x xs =>
      cases n with
      | zero => simp
      | succ m => simp

theorem TextFragment.grapheme_from (g : List UChar) (off : Nat) :
    (TextFragment.from g off).grapheme = g := by
  unfold TextFragment.from
  split
  · split <;> rfl
  · split
    · rfl
    · split <;> rfl
  · rfl

theorem fragmentsFrom_length (off : Nat) (cl : List (List UChar)) :
    (fragmentsFrom off cl).length = cl.length := by
  induction cl generalizing off with
  | nil => rfl
  | cons g gs ih => simp [fragmentsFrom, ih]

theorem fragmentsFrom_getElem? (off i : Nat) (cl : List (List UChar)) :
    ((fragmentsFrom off cl)[i]?).map TextFragment.grapheme = cl[i]? := by
  induction cl generalizing off i with
  | nil => simp [fragmentsFrom]
  | cons g gs ih =>
      cases i with
      | zero => simp [fragmentsFrom, TextFragment.grapheme_from]
      | succ n => simpa [fragmentsFrom] using ih (off + strLen g) n

theorem grapheme_count_eq (l : Line) :
    l.grapheme_count = (graphemes l.string).length :=
  fragmentsFrom_length 0 _

/-! ### C5 — insert a character, then remove at the same index -/

/-- An ASCII letter, for concrete instances. -/
def chA : UChar := ⟨97, 1, .base, 1, false, false⟩

/-- Another ASCII letter. -/
def chB : UChar := ⟨98, 1, .base, 1, false, false⟩

/-- U+0301 COMBINING ACUTE ACCENT: two UTF-8 bytes, Extend class,
display width 0. -/
def combAcute : UChar := ⟨0x301, 2, .extend, 0, false, false⟩

/-- C5 counterexample: inserting a combining character between "a" and
"b" merges it into the cluster of "a"; removing at the same grapheme
index then removes "b", so the original text is not restored even
though the index was within bounds. -/
theorem c5_insert_remove_cex :
    1 ≤ (Line.mk [chA, chB]).grapheme_count ∧
      (((Line.mk [chA, chB]).insert_char_at 1 combAcute).remove_at 1).string ≠
        [chA, chB] := by
  decide

/-- C5 (amended): for every Line `L` and index `i ≤ grapheme_count L`,
inserting a character `c` at `i` and then removing at `i` restores the
text exactly, provided the inserted character is not a combining
(Extend-class) character and the fragment at `i` (when one exists) does
not itself start with a combining character — i.e. provided the
insertion does not merge grapheme clusters. -/
theorem c5_insert_remove_restores (l : Line) (i : Nat) (c : UChar)
    (hi : i ≤ l.grapheme_count)
    (hc : c.cls = CharClass.base)
    (hnext : ∀ f, l.fragments[i]? = some f →
      ∀ d, f.grapheme.head? = some d → d.cls = CharClass.base) :
    ((l.insert_char_at i c).remove_at i).string = l.string := by
  have hcl : i ≤ (graphemes l.string).length := grapheme_count_eq l ▸ hi
  by_cases hlt : i < (graphemes l.string).length
  · -- insertion strictly inside: split the clusters at `i`
    -- the character after the insertion point is not Extend-class
    have hBhead : ∀ d, ((graphemes l.string).drop i).flatten.head? = some d →
        isExt d = false := by
      intro d hd
      have hdrop : (graphemes l.string).drop i =
          (graphemes l.string)[i] :: (graphemes l.string).drop (i + 1) :=
        List.drop_eq_getElem_cons hlt
      obtain ⟨d0, t0, hg, _⟩ := clustersOk_graphemes l.string
        (graphemes l.string)[i] (List.getElem_mem hlt)
      rw [hdrop, List.flatten_cons, hg, List.cons_append,
        List.head?_cons, Option.some.injEq] at hd
      subst hd
      have hfrag : (l.fragments[i]?).map TextFragment.grapheme =
          some (graphemes l.string)[i] := by
        rw [Line.fragments, fragmentsFrom_getElem?, List.getElem?_eq_getElem hlt]
      obtain ⟨f, hf, hfg⟩ := Option.map_eq_some'.mp hfrag
      exact (isExt_eq_false_iff d0).mpr
        (hnext f hf d0 (by rw [hfg, hg]; rfl))
    have hins : (l.insert_char_at i c).string =
        ((graphemes l.string).take i).flatten ++
          c :: ((graphemes l.string).drop i).flatten := by
      simp only [Line.insert_char_at]
      rw [if_pos hlt]
    -- segmentation of the new text
    have hseg : graphemes (((graphemes l.string).take i).flatten ++
          c :: ((graphemes l.string).drop i).flatten) =
        (graphemes l.string).take i ++
          [c] :: graphemes ((graphemes l.string).drop i).flatten := by
      have h1 := graphemes_append_of_head_base
        ((graphemes l.string).take i).flatten
        (c :: ((graphemes l.string).drop i).flatten)
        (by intro d hd
            rw [List.head?_cons, Option.some.injEq] at hd
            subst hd
            exact (isExt_eq_false_iff c).mpr hc)
      have h2 : graphemes (c :: ((graphemes l.string).drop i).flatten) =
          [c] :: graphemes ((graphemes l.string).drop i).flatten := by
        have ht := takeWhile_eq_nil_of_head_not isExt
          ((graphemes l.string).drop i).flatten hBhead
        rw [graphemes_cons, ht.1, ht.2]
      have h3 : graphemes ((graphemes l.string).take i).flatten =
          (graphemes l.string).take i := by
        refine graphemes_flatten_of_clusters ((graphemes l.string).take i) ?_ ?_
        · exact fun g hg => clustersOk_graphemes l.string g
            (List.take_subset i (graphemes l.string) hg)
        · intro g hg
          rw [take_tail] at hg
          exact headsBase_graphemes_tail l.string g
            (List.take_subset _ _ hg)
      rw [h1, h2, h3]
    have hlen : ((graphemes l.string).take i).length = i := by
      rw [List.length_take]; omega
    have hstep : ((l.insert_char_at i c).remove_at i).string =
        ((graphemes l.string).take i).flatten ++
          ((graphemes l.string).drop i).flatten := by
      simp only [Line.remove_at, hins, hseg]
      have hcond : i < ((graphemes l.string).take i ++
          [c] :: graphemes ((graphemes l.string).drop i).flatten).length := by
        simp [hlen]
      rw [if_pos hcond, List.take_left' hlen]
      have hdp : ((graphemes l.string).take i ++
            [c] :: graphemes ((graphemes l.string).drop i).flatten).drop (i + 1) =
          graphemes ((graphemes l.string).drop i).flatten := by
        have h5 : (graphemes l.string).take i ++
              [c] :: graphemes ((graphemes l.string).drop i).flatten =
            ((graphemes l.string).take i ++ [[c]]) ++
              graphemes ((graphemes l.string).drop i).flatten := by simp
        rw [h5, List.drop_left' (by simp [hlen])]
      rw [hdp, graphemes_flatten]
    rw [hstep, ← List.flatten_append, List.take_append_drop, graphemes_flatten]
  · -- insertion at the very end: the new character is appended
    have hieq : i = (graphemes l.string).length := le_antisymm hcl (not_lt.mp hlt)
    have hins : (l.insert_char_at i c).string = l.string ++ [c] := by
      simp only [Line.insert_char_at]
      rw [if_neg hlt]
    have hseg : graphemes (l.string ++ [c]) = graphemes l.string ++ [[c]] := by
      rw [graphemes_append_of_head_base l.string [c]
        (by intro d hd
            rw [List.head?_cons, Option.some.injEq] at hd
            subst hd
            exact (isExt_eq_false_iff c).mpr hc)]
      rfl
    simp only [Line.remove_at, hins, hseg]
    have hcond : i < (graphemes l.string ++ [[c]]).length := by
      simp [hieq]
    rw [if_pos hcond, List.take_left' hieq.symm,
      List.drop_eq_nil_of_le (by simp [hieq]), List.flatten_nil,
      List.append_nil, graphemes_flatten]

/-- C5 witness: appending "b" to the line "a" at index 1 (within bounds)
and removing at 1 restores the text. -/
theorem c5_insert_remove_witness :
    1 ≤ (Line.mk [chA]).grapheme_count ∧
      (((Line.mk [chA]).insert_char_at 1 chB).remove_at 1).string = [chA] :=
  ⟨by decide, c5_insert_remove_restores (Line.mk [chA]) 1 chB (by decide) rfl
    (by intro f hf
        rw [show (Line.mk [chA]).fragments[1]? = none from rfl] at hf
        exact absurd hf (by simp))⟩

/-! ### C9 — width_until is monotone -/

/-- C9: `Line::width_until` is non-decreasing in its index argument:
for all `i ≤ j`, `width_until i ≤ width_until j` (each fragment
contributes a non-negative width: Zero/Half count 1, Full counts 2). -/
theorem c9_width_until_monotone (l : Line) (i j : Nat) (hij : i ≤ j) :
    l.width_until i ≤ l.width_until j := by
  unfold Line.width_until
  rw [List.map_take, List.map_take]
  obtain ⟨k, rfl⟩ := Nat.exists_eq_add_of_le hij
  rw [List.take_add, List.sum_append]
  exact Nat.le_add_right _ _

/-- C9 witness at a concrete line and index pair. -/
theorem c9_width_until_monotone_witness :
    1 ≤ 2 ∧
      (Line.mk [chA, chB]).width_until 1 ≤ (Line.mk [chA, chB]).width_until 2 :=
  ⟨by decide, c9_width_until_monotone (Line.mk [chA, chB]) 1 2 (by decide)⟩

/-! ### Buffer (`src/editor/view/buffer.rs`) -/

/-- `Direction` from `editor_cmd.rs`. -/
inductive Direction where
  | PageUp
  | PageDown
  | Up
  | Left
  | Right
  | Down
  | Home
  | End
deriving DecidableEq

/-- `TerminalSize` from `terminal.rs`. -/
structure TerminalSize where
  width : Nat
  height : Nat
deriving DecidableEq

/-- `Position` from `terminal.rs`: a cell of the unbounded screen grid. -/
structure Position where
  x : Nat
  y : Nat
deriving DecidableEq

/-- `Location` from `view.rs`: a logical (grapheme, line) cursor
position. -/
structure Location where
  grapheme_index : Nat
  line_index : Nat
deriving DecidableEq

/-- `FileType` from `file_type.rs`. -/
inductive FileType where
  | PlainText
  | Rust
deriving DecidableEq

/-- `FileInfo` from `view/file_info.rs`; the path is kept abstract as an
optional name (list of code points). -/
structure FileInfo where
  file_type : FileType
  path : Option (List Nat)
deriving DecidableEq

/-- `Buffer` from `view/buffer.rs`. -/
structure Buffer where
  lines : List Line
  file_info : FileInfo
  dirty : Bool
deriving DecidableEq

/-- `Buffer::is_dirty`. -/
def Buffer.is_dirty (b : Buffer) : Bool := b.dirty

/-- `Buffer::height`. -/
def Buffer.height (b : Buffer) : Nat := b.lines.length

/-- The error kind `Buffer::save` produces (`ErrorKind::NotFound`). -/
inductive SaveErr where
  | notFound
deriving DecidableEq

/-- `Buffer::save`: with no file identity, fail with NotFound leaving
the buffer untouched; with one, clear `dirty` and return the text lines
written out, one per `Line`.  The write itself is the external file
collaborator and is modelled as succeeding; its result is the returned
list. -/
def Buffer.save (b : Buffer) : Buffer × Except SaveErr (List (List UChar)) :=
  match b.file_info.path with
  | some _ => ({ b with dirty := false }, .ok (b.lines.map Line.string))
  | none => (b, .error .notFound)

/-- `Buffer::delete`: sets `dirty` first, unconditionally; then, if the
location addresses an existing line, removes the fragment at
`grapheme_index` when there is one, else merges the following line
(when it exists) into the current one (`Vec::remove` then `append`). -/
def Buffer.delete (b : Buffer) (loc : Location) : Buffer :=
  { b with
    dirty := true
    lines :=
      match b.lines[loc.line_index]? with
      | none => b.lines
      | some line =>
        if loc.grapheme_index < line.grapheme_count then
          b.lines.set loc.line_index (line.remove_at loc.grapheme_index)
        else if loc.line_index + 1 < b.lines.length then
          match b.lines[loc.line_index + 1]? with
          | some next =>
              (b.lines.eraseIdx (loc.line_index + 1)).set loc.line_index
                (line.append next)
          | none => b.lines
        else b.lines }

/-! ### View (`src/editor/view.rs`) -/

/-- `View` from `view.rs`.  The `search_term` the renderer keeps is not
consulted by any of the movement/backspace operations treated here and
is omitted. -/
structure View where
  buffer : Buffer
  needs_redraw : Bool
  size : TerminalSize
  text_location : Location
  scroll_offset : Position
deriving DecidableEq

/-- `View::snap_to_grapheme`: clamp `grapheme_index` to
`grapheme_count - 1` of the addressed line (0 when the line does not
exist). -/
def View.snap_to_grapheme (v : View) : View :=
  { v with
    text_location :=
      { v.text_location with
        grapheme_index :=
          match v.buffer.lines[v.text_location.line_index]? with
          | none => 0
          | some line =>
              min v.text_location.grapheme_index (line.grapheme_count - 1) } }

/-- `View::snap_to_valid_line`: clamp `line_index` to the line count. -/
def View.snap_to_valid_line (v : View) : View :=
  { v with
    text_location :=
      { v.text_location with
        line_index := min v.text_location.line_index v.buffer.lines.length } }

/-- `View::move_up_by`. -/
def View.move_up_by (v : View) (count : Nat) : View :=
  View.snap_to_grapheme
    { v with
      text_location :=
        { v.text_location with
          line_index := v.text_location.line_index - count } }

/-- `View::move_down_by`. -/
def View.move_down_by (v : View) (count : Nat) : View :=
  View.snap_to_valid_line (View.snap_to_grapheme
    { v with
      text_location :=
        { v.text_location with
          line_index := v.text_location.line_index + count } })

/-- `View::move_start_of_line`. -/
def View.move_start_of_line (v : View) : View :=
  { v with
    text_location := { v.text_location with grapheme_index := 0 } }

/-- `View::move_end_of_line`. -/
def View.move_end_of_line (v : View) : View :=
  { v with
    text_location :=
      { v.text_location with
        grapheme_index :=
          match v.buffer.lines[v.text_location.line_index]? with
          | none => 0
          | some line => line.grapheme_count } }

/-- `View::move_right`. -/
def View.move_right (v : View) : View :=
  let line_width :=
    match v.buffer.lines[v.text_location.line_index]? with
    | none => 0
    | some line => line.grapheme_count
  if v.text_location.grapheme_index < line_width then
    { v with
      text_location :=
        { v.text_location with
          grapheme_index := v.text_location.grapheme_index + 1 } }
  else if v.text_location.line_index < v.buffer.lines.length then
    (v.move_down_by 1).move_start_of_line
  else v

/-- `View::move_left`. -/
def View.move_left (v : View) : View :=
  if 0 < v.text_location.grapheme_index then
    { v with
      text_location :=
        { v.text_location with
          grapheme_index := v.text_location.grapheme_index - 1 } }
  else if 0 < v.text_location.line_index then
    (v.move_up_by 1).move_end_of_line
  else v

/-- `View::text_location_to_position`: the screen column is
`width_until(grapheme_index)` of the addressed line (0 when none), the
row is `line_index`. -/
def View.text_location_to_position (v : View) : Position :=
  ⟨(match v.buffer.lines[v.text_location.line_index]? with
     | none => 0
     | some line => line.width_until v.text_location.grapheme_index),
   v.text_location.line_index⟩

/-- `View::scroll_orizontally` (sic): snap `scroll_offset.x` to the
target column when it falls outside the visible `[x, x + width)`
window, marking the view for redraw on any change. -/
def View.scroll_orizontally (v : View) (t : Nat) : View :=
  if t < v.scroll_offset.x then
    { v with
      scroll_offset := { v.scroll_offset with x := t }
      needs_redraw := true }
  else if v.scroll_offset.x + v.size.width ≤ t then
    { v with
      scroll_offset := { v.scroll_offset with x := t - v.size.width + 1 }
      needs_redraw := true }
  else v

/-- `View::scroll_vertically`: the row analogue. -/
def View.scroll_vertically (v : View) (t : Nat) : View :=
  if t < v.scroll_offset.y then
    { v with
      scroll_offset := { v.scroll_offset with y := t }
      needs_redraw := true }
  else if v.scroll_offset.y + v.size.height ≤ t then
    { v with
      scroll_offset := { v.scroll_offset with y := t - v.size.height + 1 }
      needs_redraw := true }
  else v

/-- `View::scroll_location`: convert the cursor location to a screen
position and follow it horizontally, then vertically. -/
def View.scroll_location (v : View) : View :=
  (v.scroll_orizontally v.text_location_to_position.x).scroll_vertically
    v.text_location_to_position.y

/-- The movement dispatch inside `View::handle_movement`. -/
def View.apply_move (v : View) (mov : Direction) : View :=
  match mov with
  | .Up => v.move_up_by 1
  | .Left => v.move_left
  | .Right => v.move_right
  | .Down => v.move_down_by 1
  | .End => v.move_end_of_line
  | .Home => v.move_start_of_line
  | .PageUp => v.move_up_by (v.size.height - 1)
  | .PageDown => v.move_down_by (v.size.height - 1)

/-- `View::handle_movement`: move, then re-run the scroll-follow
adjustment. -/
def View.handle_movement (v : View) (mov : Direction) : View :=
  (v.apply_move mov).scroll_location

/-- `View::handle_deletion`: delete at the cursor and mark for redraw. -/
def View.handle_deletion (v : View) : View :=
  { v with buffer := v.buffer.delete v.text_location, needs_redraw := true }

/-- `View::handle_backspace`: unless the cursor is at the very origin,
move left and delete there. -/
def View.handle_backspace (v : View) : View :=
  if v.text_location.line_index ≠ 0 ∨ v.text_location.grapheme_index ≠ 0 then
    (v.handle_movement .Left).handle_deletion
  else v

/-! ### C10 — backspace at the document origin -/

/-- C10: for every View whose cursor Location is at the origin
`{line_index: 0, grapheme_index: 0}`, the backspace handler leaves the
entire View — in particular the buffer's lines, the dirty flag and the
cursor location — unchanged. -/
theorem c10_backspace_at_origin_noop (v : View)
    (h : v.text_location = ⟨0, 0⟩) :
    v.handle_backspace = v := by
  unfold View.handle_backspace
  rw [h]
  simp

/-- A small concrete view resting at the origin. -/
def viewAtOrigin : View :=
  ⟨⟨[Line.mk [chA, chB]], ⟨.PlainText, none⟩, false⟩, false, ⟨10, 5⟩,
    ⟨0, 0⟩, ⟨0, 0⟩⟩

/-- C10 witness: the no-op at a concrete view. -/
theorem c10_backspace_at_origin_witness :
    viewAtOrigin.handle_backspace = viewAtOrigin :=
  c10_backspace_at_origin_noop viewAtOrigin rfl

/-! ### C6 — Buffer::delete -/

/-- A one-line clean buffer, for concrete instances. -/
def bufAB : Buffer := ⟨[Line.mk [chA, chB]], ⟨.PlainText, none⟩, false⟩

/-- C6 counterexample: deleting at an out-of-range `line_index` is not a
complete no-op — the lines are unchanged but the dirty flag, false
before, is set to true (the code sets `dirty` before checking the
location). -/
theorem c6_delete_out_of_range_cex :
    bufAB.lines.length ≤ 5 ∧
      (bufAB.delete ⟨0, 5⟩).lines = bufAB.lines ∧
      bufAB.dirty = false ∧ (bufAB.delete ⟨0, 5⟩).dirty = true := by
  decide

/-- C6 (amended): `delete` sets the dirty flag unconditionally (also
when `line_index` is out of range, where the lines are nevertheless left
unchanged); when the addressed line exists it removes exactly the
fragment at `grapheme_index` when there is one, else merges the
following line into the current one when one exists, else leaves the
lines unchanged.  The file identity is never touched. -/
theorem c6_delete_behavior (b : Buffer) (loc : Location) :
    (b.delete loc).dirty = true ∧
      (b.delete loc).file_info = b.file_info ∧
      (b.lines.length ≤ loc.line_index → (b.delete loc).lines = b.lines) ∧
      (∀ line, b.lines[loc.line_index]? = some line →
        (loc.grapheme_index < line.grapheme_count →
          (b.delete loc).lines =
            b.lines.set loc.line_index (line.remove_at loc.grapheme_index)) ∧
        (line.grapheme_count ≤ loc.grapheme_index →
          (∀ next, b.lines[loc.line_index + 1]? = some next →
            (b.delete loc).lines =
              (b.lines.eraseIdx (loc.line_index + 1)).set loc.line_index
                (line.append next)) ∧
          (b.lines.length ≤ loc.line_index + 1 →
            (b.delete loc).lines = b.lines))) := by
  refine ⟨rfl, rfl, ?_, ?_⟩
  · intro hlen
    unfold Buffer.delete
    rw [List.getElem?_eq_none (by omega)]
  · intro line hline
    refine ⟨?_, ?_⟩
    · intro hg
      unfold Buffer.delete
      rw [hline]
      simp only [hg, if_pos]
    · intro hg
      have hg' : ¬loc.grapheme_index < line.grapheme_count := by omega
      refine ⟨?_, ?_⟩
      · intro next hnext
        have hlt : loc.line_index + 1 < b.lines.length :=
          (List.getElem?_eq_some.mp hnext).1
        unfold Buffer.delete
        rw [hline]
        simp only [if_neg hg', if_pos hlt, hnext]
      · intro hlen
        have hlt : ¬loc.line_index + 1 < b.lines.length := by omega
        unfold Buffer.delete
        rw [hline]
        simp only [if_neg hg', if_neg hlt]

/-- C6 witness: deleting the fragment at grapheme 0 of the only line. -/
theorem c6_delete_behavior_witness :
    bufAB.lines[0]? = some (Line.mk [chA, chB]) ∧
      (0 : Nat) < (Line.mk [chA, chB]).grapheme_count ∧
      (bufAB.delete ⟨0, 0⟩).lines =
        bufAB.lines.set 0 ((Line.mk [chA, chB]).remove_at 0) ∧
      (bufAB.delete ⟨0, 0⟩).dirty = true :=
  ⟨by decide, by decide,
    ((c6_delete_behavior bufAB ⟨0, 0⟩).2.2.2 (Line.mk [chA, chB])
      (by decide)).1 (by decide),
    (c6_delete_behavior bufAB ⟨0, 0⟩).1⟩

/-! ### C7 — Buffer::save -/

/-- C7: `save` fails with the not-found error exactly when no file
identity is set, and then leaves the whole buffer — in particular the
dirty flag — unchanged; with a file identity set (the write collaborator
succeeding), it writes every Line's text, one per output line, and
clears the dirty flag, so `is_dirty` is false immediately afterwards. -/
theorem c7_save_spec (b : Buffer) :
    (b.file_info.path = none ↔ (b.save).2 = .error .notFound) ∧
      (b.file_info.path = none → (b.save).1 = b) ∧
      (∀ p, b.file_info.path = some p →
        (b.save).2 = .ok (b.lines.map Line.string) ∧
        (b.save).1.is_dirty = false ∧
        (b.save).1.lines = b.lines ∧
        (b.save).1.file_info = b.file_info) := by
  unfold Buffer.save
  cases hp : b.file_info.path with
  | none => exact ⟨⟨fun _ => rfl, fun _ => rfl⟩, fun _ => rfl, by simp⟩
  | some p =>
      refine ⟨⟨fun h => absurd h (by simp), fun h => by simp at h⟩,
        fun h => by simp at h, ?_⟩
      intro q hq
      exact ⟨rfl, rfl, rfl, rfl⟩

/-- A buffer with a file identity set and the dirty flag on. -/
def bufNamed : Buffer := ⟨[Line.mk [chA]], ⟨.PlainText, some [97]⟩, true⟩

/-- C7 witness: a successful save of a named dirty buffer writes its
single line and clears the dirty flag; an unnamed buffer fails with
not-found, untouched. -/
theorem c7_save_spec_witness :
    (bufNamed.save).2 = .ok [[chA]] ∧
      (bufNamed.save).1.is_dirty = false ∧
      (bufAB.save).2 = .error .notFound ∧ (bufAB.save).1 = bufAB :=
  ⟨((c7_save_spec bufNamed).2.2 [97] rfl).1, ((c7_save_spec bufNamed).2.2 [97] rfl).2.1,
    (c7_save_spec bufAB).1.mp rfl, (c7_save_spec bufAB).2.1 rfl⟩

/-! ### C1 — the scroll-follow invariant -/

theorem scroll_orizontally_sb (v : View) (t : Nat) :
    (v.scroll_orizontally t).buffer = v.buffer ∧
      (v.scroll_orizontally t).text_location = v.text_location ∧
      (v.scroll_orizontally t).size = v.size ∧
      (v.scroll_orizontally t).scroll_offset.y = v.scroll_offset.y := by
  unfold View.scroll_orizontally
  split
  · exact ⟨rfl, rfl, rfl, rfl⟩
  · split
    · exact ⟨rfl, rfl, rfl, rfl⟩
    · exact ⟨rfl, rfl, rfl, rfl⟩

theorem scroll_vertically_sb (v : View) (t : Nat) :
    (v.scroll_vertically t).buffer = v.buffer ∧
      (v.scroll_vertically t).text_location = v.text_location ∧
      (v.scroll_vertically t).size = v.size ∧
      (v.scroll_vertically t).scroll_offset.x = v.scroll_offset.x := by
  unfold View.scroll_vertically
  split
  · exact ⟨rfl, rfl, rfl, rfl⟩
  · split
    · exact ⟨rfl, rfl, rfl, rfl⟩
    · exact ⟨rfl, rfl, rfl, rfl⟩

/-- After the horizontal scroll-follow step towards column `t`, `t` is
inside the visible `[x, x + width)` window (for a positive width). -/
theorem scroll_orizontally_x (v : View) (t : Nat) (hw : 0 < v.size.width) :
    (v.scroll_orizontally t).scroll_offset.x ≤ t ∧
      t < (v.scroll_orizontally t).scroll_offset.x + v.size.width := by
  unfold View.scroll_orizontally
  split
  · next h =>
      refine ⟨le_rfl, ?_⟩
      show t < t + v.size.width
      omega
  · next h =>
      split
      · next h2 =>
          refine ⟨?_, ?_⟩
          · show t - v.size.width + 1 ≤ t
            omega
          · show t < t - v.size.width + 1 + v.size.width
            omega
      · next h2 => omega

/-- The vertical analogue of `scroll_orizontally_x`. -/
theorem scroll_vertically_y (v : View) (t : Nat) (hh : 0 < v.size.height) :
    (v.scroll_vertically t).scroll_offset.y ≤ t ∧
      t < (v.scroll_vertically t).scroll_offset.y + v.size.height := by
  unfold View.scroll_vertically
  split
  · next h =>
      refine ⟨le_rfl, ?_⟩
      show t < t + v.size.height
      omega
  · next h =>
      split
      · next h2 =>
          refine ⟨?_, ?_⟩
          · show t - v.size.height + 1 ≤ t
            omega
          · show t < t - v.size.height + 1 + v.size.height
            omega
      · next h2 => omega

theorem position_congr (v₁ v₂ : View) (hb : v₁.buffer = v₂.buffer)
    (ht : v₁.text_location = v₂.text_location) :
    v₁.text_location_to_position = v₂.text_location_to_position := by
  unfold View.text_location_to_position
  rw [hb, ht]

/-- After `scroll_location` the cursor's mapped position is inside the
viewport (for positive dimensions). -/
theorem scroll_location_spec (w : View) (hw : 0 < w.size.width)
    (hh : 0 < w.size.height) :
    (w.scroll_location).scroll_offset.x ≤
        (w.scroll_location).text_location_to_position.x ∧
      (w.scroll_location).text_location_to_position.x <
        (w.scroll_location).scroll_offset.x + w.size.width ∧
      (w.scroll_location).scroll_offset.y ≤
        (w.scroll_location).text_location_to_position.y ∧
      (w.scroll_location).text_location_to_position.y <
        (w.scroll_location).scroll_offset.y + w.size.height := by
  unfold View.scroll_location
  have h1 := scroll_orizontally_sb w w.text_location_to_position.x
  have h2 := scroll_vertically_sb
    (w.scroll_orizontally w.text_location_to_position.x)
    w.text_location_to_position.y
  have hx := scroll_orizontally_x w w.text_location_to_position.x hw
  have hy := scroll_vertically_y
    (w.scroll_orizontally w.text_location_to_position.x)
    w.text_location_to_position.y (by rw [h1.2.2.1]; exact hh)
  have hp : ((w.scroll_orizontally
        w.text_location_to_position.x).scroll_vertically
        w.text_location_to_position.y).text_location_to_position =
      w.text_location_to_position :=
    position_congr _ _ (by rw [h2.1, h1.1]) (by rw [h2.2.1, h1.2.1])
  rw [hp, h2.2.2.2]
  rw [h1.2.2.1] at hy
  exact ⟨hx.1, hx.2, hy.1, hy.2⟩

theorem apply_move_sb (v : View) (mov : Direction) :
    (v.apply_move mov).size = v.size ∧
      (v.apply_move mov).buffer = v.buffer := by
  cases mov with
  | Left =>
      show (v.move_left).size = v.size ∧ (v.move_left).buffer = v.buffer
      unfold View.move_left
      split
      · exact ⟨rfl, rfl⟩
      · split
        · exact ⟨rfl, rfl⟩
        · exact ⟨rfl, rfl⟩
  | Right =>
      show (v.move_right).size = v.size ∧ (v.move_right).buffer = v.buffer
      unfold View.move_right
      dsimp only
      split <;>
        first
          | exact ⟨rfl, rfl⟩
          | (split <;> exact ⟨rfl, rfl⟩)
  | Up => exact ⟨rfl, rfl⟩
  | Down => exact ⟨rfl, rfl⟩
  | Home => exact ⟨rfl, rfl⟩
  | End => exact ⟨rfl, rfl⟩
  | PageUp => exact ⟨rfl, rfl⟩
  | PageDown => exact ⟨rfl, rfl⟩

/-- C1 (amended): provided the viewport's width and height are positive,
after every movement command the cursor's mapped screen column
(`width_until` of its grapheme index on its line) lies in
`[scroll_offset.x, scroll_offset.x + width)` and its mapped row
(`line_index`) lies in `[scroll_offset.y, scroll_offset.y + height)`;
and the adjustment snaps `scroll_offset.x` to the column when the column
is left of it, to `column - width + 1` when the column is at or past
`scroll_offset.x + width`, leaving it unchanged otherwise — with the
symmetric rule for rows.  (Since the invariant is re-established by
every single movement from an arbitrary state, it holds after each step
of every sequence of movements.) -/
theorem c1_scroll_follow (v : View) (mov : Direction)
    (hw : 0 < v.size.width) (hh : 0 < v.size.height) :
    ((v.handle_movement mov).scroll_offset.x ≤
        (v.handle_movement mov).text_location_to_position.x ∧
      (v.handle_movement mov).text_location_to_position.x <
        (v.handle_movement mov).scroll_offset.x + v.size.width ∧
      (v.handle_movement mov).scroll_offset.y ≤
        (v.handle_movement mov).text_location_to_position.y ∧
      (v.handle_movement mov).text_location_to_position.y <
        (v.handle_movement mov).scroll_offset.y + v.size.height) ∧
      (∀ u : View, ∀ t : Nat,
        (u.scroll_orizontally t).scroll_offset.x =
          (if t < u.scroll_offset.x then t
           else if u.scroll_offset.x + u.size.width ≤ t then
             t - u.size.width + 1
           else u.scroll_offset.x) ∧
        (u.scroll_vertically t).scroll_offset.y =
          (if t < u.scroll_offset.y then t
           else if u.scroll_offset.y + u.size.height ≤ t then
             t - u.size.height + 1
           else u.scroll_offset.y)) := by
  constructor
  · unfold View.handle_movement
    have hsb := apply_move_sb v mov
    have hspec := scroll_location_spec (v.apply_move mov)
      (by rw [hsb.1]; exact hw) (by rw [hsb.1]; exact hh)
    rw [hsb.1] at hspec
    exact hspec
  · intro u t
    constructor
    · unfold View.scroll_orizontally
      split
      · rfl
      · split <;> rfl
    · unfold View.scroll_vertically
      split
      · rfl
      · split <;> rfl

/-- A view with a zero-sized viewport. -/
def viewZero : View :=
  ⟨⟨[], ⟨.PlainText, none⟩, false⟩, false, ⟨0, 0⟩, ⟨0, 0⟩, ⟨0, 0⟩⟩

/-- C1 counterexample: with a zero-sized viewport the claimed intervals
`[scroll_offset.x, scroll_offset.x + width)` and
`[scroll_offset.y, scroll_offset.y + height)` are empty, so the
invariant cannot hold after a movement. -/
theorem c1_scroll_follow_cex :
    ¬((viewZero.handle_movement .Right).scroll_offset.x ≤
        (viewZero.handle_movement .Right).text_location_to_position.x ∧
      (viewZero.handle_movement .Right).text_location_to_position.x <
        (viewZero.handle_movement .Right).scroll_offset.x +
          viewZero.size.width ∧
      (viewZero.handle_movement .Right).scroll_offset.y ≤
        (viewZero.handle_movement .Right).text_location_to_position.y ∧
      (viewZero.handle_movement .Right).text_location_to_position.y <
        (viewZero.handle_movement .Right).scroll_offset.y +
          viewZero.size.height) := by
  decide

/-- C1 witness: the invariant holds after a concrete movement on a
positive-sized viewport. -/
theorem c1_scroll_follow_witness :
    0 < viewAtOrigin.size.width ∧ 0 < viewAtOrigin.size.height ∧
      ((viewAtOrigin.handle_movement .Right).scroll_offset.x ≤
        (viewAtOrigin.handle_movement .Right).text_location_to_position.x) :=
  ⟨by decide, by decide,
    (c1_scroll_follow viewAtOrigin .Right (by decide) (by decide)).1.1⟩

/-! ### AnnotatedLine (`src/editor/annotated_line.rs`)

The annotated line pairs a byte string with tagged byte ranges.  Bytes
are abstract (`Nat`); a range is `[start, stop)`.  The source's
`Annotation` structure is embedded as `Ann`. -/

/-- `AnnotationType` from `annotated_line.rs`, together with the lexical
categories the highlighter uses. -/
inductive AnnotationType where
  | None
  | Match
  | SelectedMatch
  | Number
  | Char
  | Lifetime
deriving DecidableEq

/-- A byte range `[start, stop)` (a Rust `Range<ByteIndex>`). -/
structure ByteRange where
  start : Nat
  stop : Nat
deriving DecidableEq

/-- The source's `Annotation`: a tagged byte range. -/
structure Ann where
  range : ByteRange
  ty : AnnotationType
deriving DecidableEq

/-- `AnnotatedLine`: a byte string with its annotations. -/
structure AnnotatedLine where
  line : List Nat
  annotations : List Ann
deriving DecidableEq

/-- `AnnotatedLine::push_annotation`: rejected (no-op) when the range is
empty. -/
def AnnotatedLine.pushAnn (A : AnnotatedLine) (r : ByteRange)
    (ty : AnnotationType) : AnnotatedLine :=
  if r.start < r.stop then
    { A with annotations := A.annotations ++ [⟨r, ty⟩] }
  else A

/-- `AnnotatedLine::replace`: splice `repl` over the byte range `r`,
then adjust every annotation by the length delta of the whole line
(`diff = |new_len - prev_len|`, added when the line widened, subtracted
— saturating at 0 — when it shrank), finally dropping annotations whose
range became empty.  When `diff = 0` the annotations are returned
untouched (the source returns early, before the retain). -/
def AnnotatedLine.replace (A : AnnotatedLine) (r : ByteRange)
    (repl : List Nat) : AnnotatedLine :=
  if r.stop ≤ r.start then A
  else
    let prev_len := A.line.length
    let newLine := A.line.take r.start ++ repl ++ A.line.drop r.stop
    let len := newLine.length
    let diff := if prev_len ≤ len then len - prev_len else prev_len - len
    if diff = 0 then { A with line := newLine }
    else
      let widened := prev_len < len
      let adjusted := A.annotations.map (fun a =>
        if a.range.stop ≤ r.start then a
        else if r.stop ≤ a.range.start then
          if widened then ⟨⟨a.range.start + diff, a.range.stop + diff⟩, a.ty⟩
          else ⟨⟨a.range.start - diff, a.range.stop - diff⟩, a.ty⟩
        else
          if widened then ⟨⟨a.range.start, a.range.stop + diff⟩, a.ty⟩
          else ⟨⟨a.range.start, a.range.stop - diff⟩, a.ty⟩)
      { line := newLine
        annotations :=
          adjusted.filter (fun a => decide (a.range.start < a.range.stop)) }

/-! ### C2 — annotation adjustment under replace -/

/-- The claim's adjustment rule for one annotation, stated over ℤ with
the signed length delta `d`: unchanged when entirely before the edit,
both ends shifted by `d` when entirely after, only the end shifted by
`d` otherwise. -/
def annAdjustSpec (d : ℤ) (r : ByteRange) (a : Ann) :
    ℤ × ℤ × AnnotationType :=
  if (a.range.stop : ℤ) ≤ (r.start : ℤ) then
    ((a.range.start : ℤ), (a.range.stop : ℤ), a.ty)
  else if (r.stop : ℤ) ≤ (a.range.start : ℤ) then
    ((a.range.start : ℤ) + d, (a.range.stop : ℤ) + d, a.ty)
  else
    ((a.range.start : ℤ), (a.range.stop : ℤ) + d, a.ty)

/-- The claim's annotation list after a replace, stated over ℤ
(`d` is the signed length delta of the whole line); annotations whose
range became empty are dropped. -/
def replaceSpecInt (A : AnnotatedLine) (r : ByteRange) (repl : List Nat) :
    List (ℤ × ℤ × AnnotationType) :=
  let d : ℤ :=
    ((A.line.take r.start ++ repl ++ A.line.drop r.stop).length : ℤ) -
      (A.line.length : ℤ)
  (A.annotations.map (annAdjustSpec d r)).filter (fun t => decide (t.1 < t.2.1))

/-- The ℤ image of an annotation. -/
def Ann.toInt (a : Ann) : ℤ × ℤ × AnnotationType :=
  ((a.range.start : ℤ), (a.range.stop : ℤ), a.ty)

theorem map_filter_toInt (anns : List Ann) (f : Ann → Ann)
    (g : Ann → ℤ × ℤ × AnnotationType)
    (h : ∀ a ∈ anns,
      ((f a).range.start < (f a).range.stop ↔ (g a).1 < (g a).2.1) ∧
      ((f a).range.start < (f a).range.stop →
        (((f a).range.start : ℤ) = (g a).1 ∧
          ((f a).range.stop : ℤ) = (g a).2.1 ∧ (f a).ty = (g a).2.2))) :
    (((anns.map f).filter
        (fun a => decide (a.range.start < a.range.stop))).map Ann.toInt) =
      (anns.map g).filter (fun t => decide (t.1 < t.2.1)) := by
  induction anns with
  | nil => rfl
  | cons a t ih =>
      have ha := h a (List.mem_cons_self _ _)
      have ht := ih (fun x hx => h x (List.mem_cons.mpr (.inr hx)))
      by_cases hk : (f a).range.start < (f a).range.stop
      · have heq : (f a).toInt = g a := by
          obtain ⟨h1', h2', h3'⟩ := ha.2 hk
          exact Prod.ext h1' (Prod.ext h2' h3')
        simp only [List.map_cons, List.filter_cons, decide_eq_true_eq]
        rw [if_pos hk, if_pos (ha.1.mp hk)]
        simp only [List.map_cons, ht, heq]
      · simp only [List.map_cons, List.filter_cons, decide_eq_true_eq]
        rw [if_neg hk, if_neg (fun hc => hk (ha.1.mpr hc)), ht]

/-- C2: `replace` over a valid non-empty byte range adjusts each
existing (non-empty) annotation by the length delta of the whole line —
unchanged when `a.stop ≤ r.start`, both ends shifted by the delta when
`a.start ≥ r.stop`, only the end shifted otherwise — and then drops
every annotation whose range became empty; the line itself becomes the
spliced text. -/
theorem c2_replace_adjusts (A : AnnotatedLine) (r : ByteRange)
    (repl : List Nat)
    (hr : r.start < r.stop) (hstop : r.stop ≤ A.line.length)
    (hne : ∀ a ∈ A.annotations, a.range.start < a.range.stop) :
    ((A.replace r repl).annotations.map Ann.toInt) = replaceSpecInt A r repl ∧
      (A.replace r repl).line =
        A.line.take r.start ++ repl ++ A.line.drop r.stop := by
  have hnotempty : ¬r.stop ≤ r.start := by omega
  have hnew : (A.line.take r.start ++ repl ++ A.line.drop r.stop).length =
      r.start + repl.length + (A.line.length - r.stop) := by
    simp only [List.length_append, List.length_take, List.length_drop]
    omega
  unfold AnnotatedLine.replace
  rw [if_neg hnotempty]
  by_cases hdiff :
      (if A.line.length ≤
          (A.line.take r.start ++ repl ++ A.line.drop r.stop).length then
        (A.line.take r.start ++ repl ++ A.line.drop r.stop).length -
          A.line.length
       else
        A.line.length -
          (A.line.take r.start ++ repl ++ A.line.drop r.stop).length) = 0
  · -- the line length is unchanged: annotations untouched, delta 0
    rw [if_pos hdiff]
    have heq : (A.line.take r.start ++ repl ++ A.line.drop r.stop).length =
        A.line.length := by
      by_cases h : A.line.length ≤
          (A.line.take r.start ++ repl ++ A.line.drop r.stop).length
      · rw [if_pos h] at hdiff; omega
      · rw [if_neg h] at hdiff; omega
    have hd0 :
        ((A.line.take r.start ++ repl ++ A.line.drop r.stop).length : ℤ) -
          (A.line.length : ℤ) = 0 := by omega
    refine ⟨?_, rfl⟩
    unfold replaceSpecInt
    rw [hd0]
    dsimp only
    have hpoint : ∀ a ∈ A.annotations, annAdjustSpec 0 r a = a.toInt := by
      intro a ha
      unfold annAdjustSpec Ann.toInt
      split
      · rfl
      · split
        · simp
        · simp
    rw [List.map_congr_left hpoint,
      List.filter_eq_self.mpr (by
        intro t ht
        obtain ⟨a, ha, rfl⟩ := List.mem_map.mp ht
        simpa [Ann.toInt] using hne a ha)]
  · rw [if_neg hdiff]
    have hneq : (A.line.take r.start ++ repl ++ A.line.drop r.stop).length ≠
        A.line.length := by
      by_cases h : A.line.length ≤
          (A.line.take r.start ++ repl ++ A.line.drop r.stop).length
      · rw [if_pos h] at hdiff; omega
      · rw [if_neg h] at hdiff; omega
    refine ⟨?_, rfl⟩
    unfold replaceSpecInt
    refine map_filter_toInt _ _ _ ?_
    intro a ha
    have hane := hne a ha
    dsimp only [annAdjustSpec, Ann.toInt]
    by_cases hb1 : a.range.stop ≤ r.start
    · have hb1i : (a.range.stop : ℤ) ≤ (r.start : ℤ) := by exact_mod_cast hb1
      rw [if_pos hb1, if_pos hb1i]
      exact ⟨by simp, fun h' => ⟨rfl, rfl, rfl⟩⟩
    · have hb1i : ¬(a.range.stop : ℤ) ≤ (r.start : ℤ) := by exact_mod_cast hb1
      rw [if_neg hb1, if_neg hb1i]
      by_cases hw : A.line.length <
          (A.line.take r.start ++ repl ++ A.line.drop r.stop).length
      · have hple : A.line.length ≤
            (A.line.take r.start ++ repl ++ A.line.drop r.stop).length :=
          le_of_lt hw
        rw [if_pos hple]
        by_cases hb2 : r.stop ≤ a.range.start
        · have hb2i : (r.stop : ℤ) ≤ (a.range.start : ℤ) := by
            exact_mod_cast hb2
          rw [if_pos hb2, if_pos hb2i, if_pos hw]
          exact ⟨by simp,
            fun h' => ⟨by simp at h' ⊢; omega, by simp at h' ⊢; omega, rfl⟩⟩
        · have hb2i : ¬(r.stop : ℤ) ≤ (a.range.start : ℤ) := by
            exact_mod_cast hb2
          rw [if_neg hb2, if_neg hb2i, if_pos hw]
          exact ⟨by simp; omega,
            fun h' => ⟨rfl, by simp at h' ⊢; omega, rfl⟩⟩
      · have hple : ¬A.line.length ≤
            (A.line.take r.start ++ repl ++ A.line.drop r.stop).length := by
          omega
        rw [if_neg hple]
        by_cases hb2 : r.stop ≤ a.range.start
        · have hb2i : (r.stop : ℤ) ≤ (a.range.start : ℤ) := by
            exact_mod_cast hb2
          rw [if_pos hb2, if_pos hb2i, if_neg hw]
          exact ⟨by simp; omega,
            fun h' => ⟨by simp at h' ⊢; omega, by simp at h' ⊢; omega, rfl⟩⟩
        · have hb2i : ¬(r.stop : ℤ) ≤ (a.range.start : ℤ) := by
            exact_mod_cast hb2
          rw [if_neg hb2, if_neg hb2i, if_neg hw]
          exact ⟨by simp; omega,
            fun h' => ⟨rfl, by simp at h' ⊢; omega, rfl⟩⟩

/-- The claim's concrete example: "foo bar baz" with annotation `[4,7)`
(kind Match) on "bar". -/
def alFooBarBaz : AnnotatedLine :=
  ⟨[102, 111, 111, 32, 98, 97, 114, 32, 98, 97, 122], [⟨⟨4, 7⟩, .Match⟩]⟩

/-- C2 witness: replacing `[0,4)` ("foo ") with "X" shrinks the line by
3; the annotation moves to `[1,4)` and the line becomes "Xbar baz". -/
theorem c2_replace_adjusts_witness :
    ((alFooBarBaz.replace ⟨0, 4⟩ [88]).annotations.map Ann.toInt) =
        replaceSpecInt alFooBarBaz ⟨0, 4⟩ [88] ∧
      (alFooBarBaz.replace ⟨0, 4⟩ [88]).line =
        [88, 98, 97, 114, 32, 98, 97, 122] ∧
      (alFooBarBaz.replace ⟨0, 4⟩ [88]).annotations = [⟨⟨1, 4⟩, .Match⟩] :=
  ⟨(c2_replace_adjusts alFooBarBaz ⟨0, 4⟩ [88] (by decide) (by decide)
      (by decide)).1,
    ((c2_replace_adjusts alFooBarBaz ⟨0, 4⟩ [88] (by decide) (by decide)
      (by decide)).2).trans (by decide),
    by decide⟩

/-! ### C4 — iterating an AnnotatedLine
(`src/editor/annotated_line_iterator.rs`) -/

/-- `AnnotatedLinePart`: one emitted slice with its kind. -/
structure AnnotatedLinePart where
  str : List Nat
  ty : AnnotationType
deriving DecidableEq

/-- One step of `AnnotatedLineIterator::next` at byte position `index`:
done past the end of the line; else, when annotations cover the
position, emit the full span of the last-listed covering annotation and
jump to its end; else emit plain text up to the start of the
first-listed annotation beginning at or after the position (or to the
end of line), with kind None. -/
def AnnotatedLine.nextPart (A : AnnotatedLine) (index : Nat) :
    Option (AnnotatedLinePart × Nat) :=
  if A.line.length ≤ index then none
  else
    match (A.annotations.filter
        (fun a => decide (a.range.start ≤ index ∧ index < a.range.stop))).getLast? with
    | some ann =>
        some (⟨(A.line.take ann.range.stop).drop ann.range.start, ann.ty⟩,
          ann.range.stop)
    | none =>
      match A.annotations.find? (fun a => decide (index ≤ a.range.start)) with
      | some ann =>
          some (⟨(A.line.take ann.range.start).drop index, .None⟩,
            ann.range.start)
      | none => some (⟨A.line.drop index, .None⟩, A.line.length)

/-- Run the iterator; the fuel bounds the number of steps.  (On an
`AnnotatedLine` that respects the never-empty-annotation invariant the
index increases strictly, so `line.length + 1` steps — as used by
`toParts` — exhaust the iterator; the Rust iterator would not terminate
on an empty annotation, which `push_annotation`/`replace` never
produce.) -/
def AnnotatedLine.partsFrom (A : AnnotatedLine) :
    Nat → Nat → List AnnotatedLinePart
  | 0, _ => []
  | fuel + 1, index =>
    match A.nextPart index with
    | none => []
    | some (p, next) => p :: A.partsFrom fuel next

/-- The part sequence produced by iterating the AnnotatedLine from the
start. -/
def AnnotatedLine.toParts (A : AnnotatedLine) : List AnnotatedLinePart :=
  A.partsFrom (A.line.length + 1) 0

theorem pairwise_trichotomy {α : Type} (R : α → α → Prop) (l : List α)
    (hp : l.Pairwise R) (a b : α) (ha : a ∈ l) (hb : b ∈ l) :
    a = b ∨ R a b ∨ R b a := by
  induction l with
  | nil => cases ha
  | cons x t ih =>
      rcases List.pairwise_cons.mp hp with ⟨hx, ht⟩
      rcases List.mem_cons.mp ha with rfl | ha'
      · rcases List.mem_cons.mp hb with rfl | hb'
        · exact .inl rfl
        · exact .inr (.inl (hx b hb'))
      · rcases List.mem_cons.mp hb with rfl | hb'
        · exact .inr (.inr (hx a ha'))
        · exact ih ht ha' hb'

theorem getLast?_mem {α : Type} (l : List α) (a : α)
    (h : l.getLast? = some a) : a ∈ l := by
  obtain ⟨hne, rfl⟩ := List.mem_getLast?_eq_getLast h
  exact List.getLast_mem hne

theorem slice_append_drop {α : Type} (l : List α) (s e : Nat) (hse : s ≤ e) :
    (l.take e).drop s ++ l.drop e = l.drop s := by
  rw [List.drop_take]
  have hd : l.drop e = (l.drop s).drop (e - s) := by
    rw [List.drop_drop]
    congr 1
    omega
  rw [hd, List.take_append_drop]

theorem partsFrom_flatten (A : AnnotatedLine)
    (hne : ∀ a ∈ A.annotations, a.range.start < a.range.stop)
    (hbound : ∀ a ∈ A.annotations, a.range.stop ≤ A.line.length)
    (hsorted : A.annotations.Pairwise
      (fun a b => a.range.stop ≤ b.range.start)) :
    ∀ fuel n, n ≤ A.line.length → A.line.length - n < fuel →
      (∀ a ∈ A.annotations, a.range.start < n → a.range.stop ≤ n) →
      ((A.partsFrom fuel n).map AnnotatedLinePart.str).flatten =
        A.line.drop n := by
  intro fuel
  induction fuel with
  | zero =>
      intro n hn hf _
      omega
  | succ fuel ih =>
      intro n hn hf hinv
      by_cases hend : A.line.length ≤ n
      · unfold AnnotatedLine.partsFrom AnnotatedLine.nextPart
        rw [if_pos hend]
        simp [List.drop_eq_nil_of_le hend]
      · unfold AnnotatedLine.partsFrom AnnotatedLine.nextPart
        rw [if_neg hend]
        cases hlast : (A.annotations.filter
            (fun a => decide (a.range.start ≤ n ∧ n < a.range.stop))).getLast? with
        | some ann =>
            have hmem' := getLast?_mem _ _ hlast
            have hmem := (List.mem_filter.mp hmem').1
            have hcov : ann.range.start ≤ n ∧ n < ann.range.stop := by
              have := (List.mem_filter.mp hmem').2
              simpa using this
            have hstart : ann.range.start = n := by
              by_cases hlt : ann.range.start < n
              · have := hinv ann hmem hlt
                omega
              · omega
            simp only [List.map_cons, List.flatten_cons]
            rw [ih ann.range.stop (hbound ann hmem) (by omega) ?_]
            · rw [hstart, slice_append_drop _ _ _ (by omega)]
            · intro a ham hsa
              rcases pairwise_trichotomy _ _ hsorted a ann ham hmem with
                rfl | hr | hr
              · exact le_rfl
              · omega
              · have := hne ann hmem
                omega
        | none =>
            have hfilt : ∀ a ∈ A.annotations,
                ¬(a.range.start ≤ n ∧ n < a.range.stop) := by
              intro a ham
              have hnil := List.getLast?_eq_none_iff.mp hlast
              have := List.filter_eq_nil_iff.mp hnil a ham
              simpa using this
            cases hfind : A.annotations.find?
                (fun a => decide (n ≤ a.range.start)) with
            | some ann =>
                have hmem := List.mem_of_find?_eq_some hfind
                have hpred : n ≤ ann.range.start := by
                  have := List.find?_some hfind
                  simpa using this
                have hgap : n < ann.range.start := by
                  have h1 := hfilt ann hmem
                  have h2 := hne ann hmem
                  omega
                simp only [List.map_cons, List.flatten_cons]
                rw [ih ann.range.start
                  (le_trans (le_of_lt (hne ann hmem)) (hbound ann hmem))
                  (by omega) ?_]
                · rw [slice_append_drop _ _ _ (by omega)]
                · intro a ham hsa
                  rcases pairwise_trichotomy _ _ hsorted a ann ham hmem with
                    rfl | hr | hr
                  · omega
                  · exact hr
                  · have := hne ann hmem
                    omega
            | none =>
                simp only [List.map_cons, List.flatten_cons]
                rw [ih A.line.length le_rfl (by omega)
                  (fun a ham _ => hbound a ham)]
                rw [List.drop_length, List.append_nil]

/-- C4 (amended): iterating an AnnotatedLine emits, at each position
covered by annotations, the full span of the *last-listed* covering
annotation with its kind (not the longest one), and otherwise plain text
up to the start of the first-listed annotation beginning at or after the
position (or the end of line) with kind None; when the annotations are
non-empty, lie within the line, and are sorted by start and pairwise
disjoint in list order, the concatenated text slices equal the whole
line's text. -/
theorem c4_parts_reconstruct (A : AnnotatedLine)
    (hne : ∀ a ∈ A.annotations, a.range.start < a.range.stop)
    (hbound : ∀ a ∈ A.annotations, a.range.stop ≤ A.line.length)
    (hsorted : A.annotations.Pairwise
      (fun a b => a.range.stop ≤ b.range.start)) :
    (A.toParts.map AnnotatedLinePart.str).flatten = A.line := by
  unfold AnnotatedLine.toParts
  have h := partsFrom_flatten A hne hbound hsorted (A.line.length + 1) 0
    (by omega) (by omega) (by intro a ha h0; omega)
  simpa using h

/-- Overlapping annotations on "abc": `[0,3)` Match listed before
`[0,1)` SelectedMatch. -/
def alOverlap : AnnotatedLine :=
  ⟨[97, 98, 99], [⟨⟨0, 3⟩, .Match⟩, ⟨⟨0, 1⟩, .SelectedMatch⟩]⟩

/-- C4 counterexample: with the (non-empty, in-bounds) annotations
`[0,3)` Match and `[0,1)` SelectedMatch on "abc", position 0 is covered
by both; the longest covering annotation is `[0,3)` Match, yet the
iterator emits the last-listed `[0,1)` SelectedMatch first, and then
re-emits the full `[0,3)` span, so the concatenation "a"+"abc" differs
from the line. -/
theorem c4_iterator_cex :
    (∀ a ∈ alOverlap.annotations, a.range.start < a.range.stop) ∧
      (alOverlap.toParts.map AnnotatedLinePart.ty) =
        [.SelectedMatch, .Match] ∧
      (alOverlap.toParts.map AnnotatedLinePart.str).flatten ≠
        alOverlap.line := by
  decide

/-- Sorted, disjoint annotations on "abcde". -/
def alSorted : AnnotatedLine :=
  ⟨[97, 98, 99, 100, 101], [⟨⟨1, 2⟩, .Match⟩, ⟨⟨3, 5⟩, .SelectedMatch⟩]⟩

/-- C4 witness: the reconstruction property at a concrete sorted,
disjoint AnnotatedLine. -/
theorem c4_parts_reconstruct_witness :
    (∀ a ∈ alSorted.annotations, a.range.start < a.range.stop) ∧
      (alSorted.toParts.map AnnotatedLinePart.str).flatten = alSorted.line :=
  ⟨by decide,
    c4_parts_reconstruct alSorted (by decide) (by decide) (by decide)⟩

/-! ### Byte-level search inside a Line (`Line::find_all` and friends) -/

/-- The character position of byte offset `b` in `s`, `none` when `b` is
not a character boundary or exceeds the string (a Rust
`str::get` rejecting un-aligned or out-of-bounds ranges). -/
def charPos? : List UChar → Nat → Option Nat
  | _, 0 => some 0
  | [], _ => none
  | c :: rest, b =>
      if b < c.utf8Len then none
      else (charPos? rest (b - c.utf8Len)).map (· + 1)

/-- Non-overlapping leftmost matches of a non-empty needle, by character
position; the fuel is the haystack length (each step consumes at least
one character). -/
def matchIndicesAux (needle : List UChar) :
    Nat → List UChar → Nat → List Nat
  | 0, _, _ => []
  | fuel + 1, hay, pos =>
    match hay with
    | [] => []
    | _ :: rest =>
      if needle.isPrefixOf hay then
        pos :: matchIndicesAux needle fuel (hay.drop needle.length)
          (pos + needle.length)
      else matchIndicesAux needle fuel rest (pos + 1)

/-- `str::match_indices` at character granularity (valid UTF-8 is
self-synchronizing, so a byte-level match always starts on a character
boundary): the character positions of the non-overlapping leftmost
matches; an empty needle matches at every boundary. -/
def matchIndices (needle hay : List UChar) : List Nat :=
  if needle = [] then List.range (hay.length + 1)
  else matchIndicesAux needle (hay.length + 1) hay 0

/-- `Line::byte_index_to_grapheme_index`: the first fragment whose start
offset is at or past the byte index.  (The source panics when there is
none; `findIdx` then returns the fragment count, which the modelled
callers never hit.) -/
def Line.byte_index_to_grapheme_index (l : Line) (index : Nat) : Nat :=
  l.fragments.findIdx (fun f => decide (index ≤ f.start_index))

/-- `Line::grapheme_index_to_byte_index`: byte offset and byte length of
fragment `index`, `(0, 0)` when out of range. -/
def Line.grapheme_index_to_byte_index (l : Line) (index : Nat) : Nat × Nat :=
  match l.fragments[index]? with
  | none => (0, 0)
  | some f => (f.start_index, strLen f.grapheme)

/-- `Line::find_all`: the needle's matches within the byte range
`[rs, re)` of the line, as (absolute byte index, grapheme index) pairs;
empty when the range is invalid (`str::get` returning `None`). -/
def Line.find_all (l : Line) (needle : List UChar) (rs re : Nat) :
    List (Nat × Nat) :=
  match charPos? l.string rs, charPos? l.string re with
  | some p, some q =>
      if p ≤ q then
        let hay := (l.string.take q).drop p
        (matchIndices needle hay).map (fun rel =>
          let abs_b := rs + strLen (hay.take rel)
          (abs_b, l.byte_index_to_grapheme_index abs_b))
      else []
  | _, _ => []

/-- `Line::search_forward`: none on an empty line; else the first match
from the byte offset of fragment `fromIdx` (which is byte 0 when
`fromIdx` is at or past the grapheme count) to the end of the line. -/
def Line.search_forward (l : Line) (needle : List UChar) (fromIdx : Nat) :
    Option Nat :=
  if l.fragments.isEmpty then none
  else
    ((l.find_all needle (l.grapheme_index_to_byte_index fromIdx).1
      (strLen l.string)).head?).map (fun m => m.2)

/-- `Line::find` as called by `Buffer::find_from`: the earlier name of
`Line::search_forward` (the snapshot's `line.rs` carries the latter). -/
def Line.find (l : Line) (needle : List UChar) (fromIdx : Nat) : Option Nat :=
  l.search_forward needle fromIdx

/-! ### C3 — Buffer::search_forward / find_from -/

/-- The scanning loop of `Buffer::find_from` at `times = 0`: peek each
line, search it (the first line, `y = 0`, from `g`; later ones from 0)
and return the first hit as (relative line offset, grapheme index). -/
def scanLoop (needle : List UChar) (g : Nat) :
    Nat → List Line → Option (Nat × Nat)
  | _, [] => none
  | y, l :: rest =>
    match l.find needle (if y = 0 then g else 0) with
    | some x => some (y, x)
    | none => scanLoop needle g (y + 1) rest

/-- Modelled from the spec: `Buffer::search_forward` itself is absent
from src/ (`View::search` calls it); per §4.5 it is the first-match
forward search, i.e. the `times = 0` instance of `Buffer::find_from`
(view/buffer.rs lines 84–142), embedded here: loop 1 scans
`lines[line_index..]` (the first of them from `grapheme_index`); on
failure, `lines.get(..line_index)?` — `none` when `line_index` exceeds
the line count — gives the head lines, each scanned from its start. -/
def Buffer.search_forward (b : Buffer) (needle : List UChar)
    (start : Location) : Option Location :=
  match scanLoop needle start.grapheme_index 0
      (b.lines.drop start.line_index) with
  | some (y, x) => some ⟨x, y + start.line_index⟩
  | none =>
    if start.line_index ≤ b.lines.length then
      (scanLoop needle 0 0 (b.lines.take start.line_index)).map
        (fun p => ⟨p.2, p.1⟩)
    else none

/-- The scan order the amended claim describes: the lines from
`line_index` on (each with its original index, the starting line
searched from `grapheme_index`, later ones from 0), followed by the
lines strictly before `line_index`, each searched from its start; the
result is the first hit. -/
def searchForwardSpec (b : Buffer) (needle : List UChar)
    (start : Location) : Option Location :=
  ((List.enumFrom start.line_index (b.lines.drop start.line_index)) ++
      List.enumFrom 0 (b.lines.take start.line_index)).findSome?
    (fun p =>
      (p.2.find needle
        (if p.1 = start.line_index then start.grapheme_index else 0)).map
        (fun x => Location.mk x p.1))

theorem scanLoop_drop_spec (needle : List UChar) (g i : Nat) :
    ∀ (ls : List Line) (k : Nat),
      ((scanLoop needle g k ls).map (fun p => Location.mk p.2 (p.1 + i))) =
        (List.enumFrom (k + i) ls).findSome? (fun p =>
          (p.2.find needle (if p.1 = i then g else 0)).map
            (fun x => Location.mk x p.1)) := by
  intro ls
  induction ls with
  | nil => intro k; rfl
  | cons l rest ih =>
      intro k
      rw [List.enumFrom_cons, List.findSome?_cons]
      by_cases hk : k = 0
      · subst hk
        have e1 : scanLoop needle g 0 (l :: rest) =
            match l.find needle g with
            | some x => some (0, x)
            | none => scanLoop needle g 1 rest := by
          simp [scanLoop]
        rw [e1, if_pos (show (0 + i : Nat) = i by omega)]
        cases hfind : l.find needle g with
        | some x => rfl
        | none =>
            have h1 := ih 1
            rw [show (0 : Nat) + i + 1 = 1 + i by omega]
            exact h1
      · have e1 : scanLoop needle g k (l :: rest) =
            match l.find needle 0 with
            | some x => some (k, x)
            | none => scanLoop needle g (k + 1) rest := by
          simp [scanLoop, hk]
        rw [e1, if_neg (show ¬(k + i = i) by omega)]
        cases hfind : l.find needle 0 with
        | some x => rfl
        | none =>
            have h1 := ih (k + 1)
            rw [show k + i + 1 = k + 1 + i by omega]
            exact h1

theorem scanLoop_take_spec (needle : List UChar) (i g0 : Nat) :
    ∀ (ls : List Line) (k : Nat), k + ls.length ≤ i →
      ((scanLoop needle 0 k ls).map (fun p => Location.mk p.2 p.1)) =
        (List.enumFrom k ls).findSome? (fun p =>
          (p.2.find needle (if p.1 = i then g0 else 0)).map
            (fun x => Location.mk x p.1)) := by
  intro ls
  induction ls with
  | nil => intro k _; rfl
  | cons l rest ih =>
      intro k hk
      rw [List.enumFrom_cons, List.findSome?_cons]
      simp only [List.length_cons] at hk
      rw [if_neg (show ¬k = i by omega)]
      have e1 : scanLoop needle 0 k (l :: rest) =
          match l.find needle 0 with
          | some x => some (k, x)
          | none => scanLoop needle 0 (k + 1) rest := by
        simp [scanLoop]
      rw [e1]
      cases hfind : l.find needle 0 with
      | some x => rfl
      | none => exact ih (k + 1) (by omega)

theorem findSome?_append' {α β : Type} (f : α → Option β) (l₁ l₂ : List α) :
    (l₁ ++ l₂).findSome? f =
      match l₁.findSome? f with
      | some b => some b
      | none => l₂.findSome? f := by
  induction l₁ with
  | nil => rfl
  | cons a t ih =>
      rw [List.cons_append, List.findSome?_cons, List.findSome?_cons]
      cases f a with
      | some b => rfl
      | none => exact ih

/-- C3 (amended): for `from.line_index ≤ line count`, `search_forward`
returns the first match in this scan order: the lines from
`from.line_index` on — the starting line searched from
`from.grapheme_index` (which maps to byte 0, i.e. the line's start, when
it is at or past the line's grapheme count), every later line from its
start — followed, wrapping, by the lines strictly *before* the starting
line, each from its start.  The starting line is never re-scanned after
wrapping, so a match lying strictly before `from.grapheme_index` in the
starting line (and nowhere else) is not found; when `from.line_index`
exceeds the line count the search returns none without scanning. -/
theorem c3_search_forward_spec (b : Buffer) (needle : List UChar)
    (start : Location) (h : start.line_index ≤ b.lines.length) :
    b.search_forward needle start = searchForwardSpec b needle start := by
  unfold Buffer.search_forward searchForwardSpec
  rw [findSome?_append']
  have hd := scanLoop_drop_spec needle start.grapheme_index start.line_index
    (b.lines.drop start.line_index) 0
  rw [show (0 + start.line_index) = start.line_index from by omega] at hd
  have ht := scanLoop_take_spec needle start.line_index start.grapheme_index
    (b.lines.take start.line_index) 0
    (by simp only [List.length_take, Nat.zero_add]; omega)
  cases hscan : scanLoop needle start.grapheme_index 0
      (b.lines.drop start.line_index) with
  | some p =>
      obtain ⟨y, x⟩ := p
      rw [hscan] at hd
      rw [← hd]
      rfl
  | none =>
      rw [hscan] at hd
      rw [← hd, if_pos h, ← ht]
      rfl

/-- A single-column ASCII character. -/
def asciiCh (n : Nat) : UChar := ⟨n, 1, .base, 1, false, false⟩

/-- A Line of ASCII characters. -/
def lineOf (ns : List Nat) : Line := ⟨ns.map asciiCh⟩

/-- The needle "cat". -/
def catNeedle : List UChar := List.map asciiCh [99, 97, 116]

/-- A document holding the single line "cat". -/
def bufCat : Buffer := ⟨[lineOf [99, 97, 116]], ⟨.PlainText, none⟩, false⟩

/-- C3 counterexample: in the one-line document "cat", searching for
"cat" from {line_index 0, grapheme_index 1} returns none although the
needle occurs at grapheme 0 of the starting line — the wrap never
re-scans the starting line, contradicting the claim's "re-scanning up
to and including the starting line, returning the first match's
Location, or none if the needle never occurs". -/
theorem c3_search_forward_cex :
    (lineOf [99, 97, 116]).find catNeedle 0 = some 0 ∧
      bufCat.search_forward catNeedle ⟨1, 0⟩ = none := by
  decide

/-- The claim's document ["cat", "dog"]. -/
def bufCatDog : Buffer :=
  ⟨[lineOf [99, 97, 116], lineOf [100, 111, 103]], ⟨.PlainText, none⟩, false⟩

/-- C3 witness: the refinement at the claim's concrete example — from
{line_index 1, grapheme_index 3} (end of "dog") the search wraps to the
earlier line and finds "cat" at {line_index 0, grapheme_index 0}. -/
theorem c3_search_forward_witness :
    (⟨3, 1⟩ : Location).line_index ≤ bufCatDog.lines.length ∧
      bufCatDog.search_forward catNeedle ⟨3, 1⟩ =
        searchForwardSpec bufCatDog catNeedle ⟨3, 1⟩ ∧
      bufCatDog.search_forward catNeedle ⟨3, 1⟩ = some ⟨0, 0⟩ :=
  ⟨by decide,
    c3_search_forward_spec bufCatDog catNeedle ⟨3, 1⟩ (by decide),
    by decide⟩

/-! ### C8 — Highlighter match pass (`src/editor/highlighter.rs`) -/

/-- `Highlighter`: per-render state, one annotation vector per row. -/
structure Highlighter where
  file_type : FileType
  query : Option (List UChar)
  selected_match : Option Location
  highlighting : List (List Ann)
deriving DecidableEq

/-- `Highlighter::push_annotation`: append to the row's vector.  (The
source indexes `highlighting[row]` and would panic out of bounds; the
model leaves the state unchanged there, and the C8 theorem assumes the
row exists.) -/
def Highlighter.pushAnn (h : Highlighter) (row : Nat) (r : ByteRange)
    (ty : AnnotationType) : Highlighter :=
  { h with
    highlighting :=
      h.highlighting.set row ((h.highlighting.getD row []) ++ [⟨r, ty⟩]) }

/-- `Highlighter::matches`: for every occurrence of the needle
(`find_all` over the whole line), push a Match annotation over its byte
span — SelectedMatch instead when the selected-match Location lies on
this row with `from_gr ≤ grapheme_index < from_gr + needle byte
length`. -/
def Highlighter.matches (h : Highlighter) (row : Nat) (line : Line) :
    Highlighter :=
  match h.query with
  | none => h
  | some needle =>
    (line.find_all needle 0 (strLen line.string)).foldl
      (fun acc mat =>
        match h.selected_match with
        | some sm =>
            if sm.line_index = row ∧ mat.2 ≤ sm.grapheme_index ∧
                sm.grapheme_index < mat.2 + strLen needle then
              acc.pushAnn row ⟨mat.1, mat.1 + strLen needle⟩ .SelectedMatch
            else acc.pushAnn row ⟨mat.1, mat.1 + strLen needle⟩ .Match
        | none => acc.pushAnn row ⟨mat.1, mat.1 + strLen needle⟩ .Match)
      h

/-- The annotation one occurrence receives: SelectedMatch exactly when
the selected-match Location lies on this row inside the occurrence's
byte-length-based pseudo-grapheme range
`[from_gr, from_gr + needle byte length)`. -/
def matchAnnOf (sel : Option Location) (row needleLen : Nat)
    (mat : Nat × Nat) : Ann :=
  ⟨⟨mat.1, mat.1 + needleLen⟩,
    match sel with
    | some sm =>
        if sm.line_index = row ∧ mat.2 ≤ sm.grapheme_index ∧
            sm.grapheme_index < mat.2 + needleLen then
          .SelectedMatch
        else .Match
    | none => .Match⟩

theorem foldl_pushAnn (row : Nat) (κ : Nat × Nat → Ann) :
    ∀ (ms : List (Nat × Nat)) (H : Highlighter),
      row < H.highlighting.length →
      ((ms.foldl
          (fun acc mat => acc.pushAnn row (κ mat).range (κ mat).ty)
          H).highlighting)[row]? =
        some (H.highlighting.getD row [] ++ ms.map κ) := by
  intro ms
  induction ms with
  | nil =>
      intro H hrow
      simp [List.getD, List.getElem?_eq_getElem hrow]
  | cons m ms ih =>
      intro H hrow
      rw [List.foldl_cons]
      have hlen : row <
          ((H.pushAnn row (κ m).range (κ m).ty).highlighting).length := by
        simpa [Highlighter.pushAnn] using hrow
      rw [ih _ hlen]
      have hset : ((H.pushAnn row (κ m).range (κ m).ty).highlighting).getD
          row [] = H.highlighting.getD row [] ++ [κ m] := by
        simp [Highlighter.pushAnn, List.getD, List.getElem?_set, hrow]
      rw [hset, List.map_cons, List.append_assoc, List.singleton_append]

/-- C8 (amended): given a needle, the match pass annotates every
occurrence of the needle in the line with Match over its byte span,
except that an occurrence gets SelectedMatch when the selected-match
Location lies on this row with its grapheme index inside the
occurrence's byte-length-based pseudo-grapheme range
`[from_gr, from_gr + needle byte length)` (for a needle whose byte
length equals its grapheme count this is exactly the occurrence
containing the location; for a multi-byte-grapheme needle several
occurrences may be selected). -/
theorem c8_matches_spec (ft : FileType) (sel : Option Location)
    (hl : List (List Ann)) (row : Nat) (line : Line)
    (needle : List UChar) (hrow : row < hl.length) :
    (((Highlighter.mk ft (some needle) sel hl).matches row
        line).highlighting)[row]? =
      some (hl.getD row [] ++
        (line.find_all needle 0 (strLen line.string)).map
          (matchAnnOf sel row (strLen needle))) := by
  unfold Highlighter.matches
  dsimp only
  have hstep :
      (fun (acc : Highlighter) (mat : Nat × Nat) =>
        match sel with
        | some sm =>
            if sm.line_index = row ∧ mat.2 ≤ sm.grapheme_index ∧
                sm.grapheme_index < mat.2 + strLen needle then
              acc.pushAnn row ⟨mat.1, mat.1 + strLen needle⟩ .SelectedMatch
            else acc.pushAnn row ⟨mat.1, mat.1 + strLen needle⟩ .Match
        | none => acc.pushAnn row ⟨mat.1, mat.1 + strLen needle⟩ .Match) =
      (fun acc mat =>
        acc.pushAnn row (matchAnnOf sel row (strLen needle) mat).range
          (matchAnnOf sel row (strLen needle) mat).ty) := by
    funext acc mat
    cases sel with
    | none => rfl
    | some sm =>
        by_cases hc : sm.line_index = row ∧ mat.2 ≤ sm.grapheme_index ∧
            sm.grapheme_index < mat.2 + strLen needle
        · simp only [matchAnnOf, if_pos hc]
        · simp only [matchAnnOf, if_neg hc]
  rw [hstep]
  exact foldl_pushAnn row (matchAnnOf sel row (strLen needle))
    (line.find_all needle 0 (strLen line.string))
    (Highlighter.mk ft (some needle) sel hl) hrow

/-- U+00E9 (é): one grapheme, two UTF-8 bytes. -/
def eAcute : UChar := ⟨233, 2, .base, 1, false, false⟩

/-- The line "éé": two graphemes, four bytes. -/
def lineEE : Line := ⟨[eAcute, eAcute]⟩

/-- C8 counterexample: searching "é" (byte length 2, grapheme count 1)
in "éé" with the selected match at {line_index 0, grapheme_index 1}.
The two occurrences start at graphemes 0 and 1, so their grapheme
ranges are `[0,1)` and `[1,2)` and only the second contains grapheme 1;
but the code tests the byte-length-based range
`[from_gr, from_gr + 2)`, so BOTH occurrences are tagged SelectedMatch —
the first occurrence should be Match under the claim. -/
theorem c8_matches_cex :
    lineEE.find_all [eAcute] 0 (strLen lineEE.string) = [(0, 0), (2, 1)] ∧
      lineEE.grapheme_count = 2 ∧
      ((Highlighter.mk .PlainText (some [eAcute]) (some ⟨1, 0⟩)
          [[]]).matches 0 lineEE).highlighting.getD 0 [] =
        [⟨⟨0, 2⟩, .SelectedMatch⟩, ⟨⟨2, 4⟩, .SelectedMatch⟩] := by
  decide

/-- The line "aba". -/
def lineABA : Line := ⟨[asciiCh 97, asciiCh 98, asciiCh 97]⟩

/-- C8 witness: the match-pass characterization at a concrete
single-byte needle, where the pseudo-grapheme range is the true
grapheme range: searching "a" in "aba" with the selected match at
grapheme 2 tags the occurrence at grapheme 0 Match and the occurrence
at grapheme 2 SelectedMatch. -/
theorem c8_matches_spec_witness :
    (0 : Nat) < 1 ∧
      ((Highlighter.mk .PlainText (some [asciiCh 97]) (some ⟨2, 0⟩)
          [[]]).matches 0 lineABA).highlighting[0]? =
        some ([] ++
          (lineABA.find_all [asciiCh 97] 0 (strLen lineABA.string)).map
            (matchAnnOf (some ⟨2, 0⟩) 0 (strLen [asciiCh 97]))) ∧
      ((Highlighter.mk .PlainText (some [asciiCh 97]) (some ⟨2, 0⟩)
          [[]]).matches 0 lineABA).highlighting.getD 0 [] =
        [⟨⟨0, 1⟩, .Match⟩, ⟨⟨2, 3⟩, .SelectedMatch⟩] :=
  ⟨by decide,
    c8_matches_spec .PlainText (some ⟨2, 0⟩) [[]] 0 lineABA [asciiCh 97]
      (by decide),
    by decide⟩

end Beppe
